import Mathlib

/-!
Verification development for the MOEA/D implementation in
`pymoo/algorithms/moo/moead.py` (classes `NeighborhoodSelection`, `MOEAD`,
`ParallelMOEAD`).

Modelling conventions:
* numpy float arrays are modelled as lists of rationals; vectors of objective
  values, weight vectors and the ideal point are `List Rat`.
* `scipy.spatial.distance.cdist` computes Euclidean distances; since
  `np.argsort` only uses the ordering of the entries and the square root is
  monotone, the sort keys are modelled by the squared Euclidean distance
  `sqDist` (the theorems about sortedness are stated with `Real.sqrt` so that
  they speak about the genuine Euclidean distance).
* an `Individual` carries a `tag` modelling Python object identity (each
  freshly created offspring object is distinct), a decision vector `X` and an
  objective vector `F`.
* randomness (`np.random.random`, `np.random.choice`, `np.random.permutation`)
  is modelled by explicit inputs: a `Draw` record per selection request, and
  an explicit plan of (index, offspring) pairs per generation; the external
  mating and evaluation collaborators are likewise modelled by the offspring
  individuals they return.
* the decomposition object is modelled by a row-wise scoring function
  `DecompFn` (objective vector, weight vector, ideal point to scalar), which
  is the contract its `do` method implements one row at a time.
-/

namespace MoeadSpec

/-- An individual of the population: `tag` models Python object identity,
`X` the decision vector, `F` the objective vector. -/
structure Individual where
  tag : Nat
  X : List Rat
  F : List Rat
deriving DecidableEq

instance : Inhabited Individual := ⟨⟨0, [], []⟩⟩

/-- A decomposition scoring function: objective vector, weight vector and
ideal point to a scalar value (lower is better). -/
abbrev DecompFn := List Rat → List Rat → List Rat → Rat

/-- Squared Euclidean distance between two vectors; `cdist` returns its
square root, and `argsort` only uses the induced order. -/
def sqDist (a b : List Rat) : Rat :=
  (List.zipWith (fun x y => (x - y) ^ 2) a b).sum

/-- One row of `cdist(ref_dirs, ref_dirs)`: the distances from vector `a`
to every vector of `dirs` (as squared distances, see `sqDist`). -/
def cdistRow (dirs : List (List Rat)) (a : List Rat) : List Rat :=
  dirs.map (fun b => sqDist a b)

/-- `np.argsort` on a row of keys: the indices `0, ..., n-1` sorted so that
the keys are non-decreasing along the result. -/
def argsort (keys : List Rat) : List Nat :=
  List.insertionSort (fun s t => keys.getD s 0 <= keys.getD t 0)
    (List.range keys.length)

/-- Python slice semantics `l[:n]` for an integer `n` (a negative `n` counts
from the end, as in `numpy`). -/
def pySlice {α : Type} (n : Int) (l : List α) : List α :=
  if 0 <= n then l.take n.toNat else l.take ((l.length : Int) + n).toNat

/-- Line 80 of the source: the neighbor table
`np.argsort(cdist(ref_dirs, ref_dirs), axis=1)[:, :nn]`, one row per
reference direction, where `nn` is the already clamped neighborhood size. -/
def mkNeighbors (ref_dirs : List (List Rat)) (nn : Int) : List (List Nat) :=
  ref_dirs.map (fun d => pySlice nn (argsort (cdistRow ref_dirs d)))

/-- `ref_dirs` must form a rectangular 2-d array for `cdist` to accept it. -/
def isRect (dirs : List (List Rat)) : Bool :=
  dirs.all (fun d => d.length = (dirs.headD []).length)

/-- The fields of `MOEAD.__init__` relevant to the verified core. -/
structure MOEADConfig where
  ref_dirs : List (List Rat)
  n_neighbors : Int
  prob_neighbor_mating : Rat
  neighbors : List (List Nat)
  pop_size : Nat
deriving DecidableEq

/-- Lines 74-86 of the source, `MOEAD.__init__`: clamp the neighborhood size
to `min(len(ref_dirs), n_neighbors)`, build the neighbor table, and fix the
population size to `len(ref_dirs)`.  The only operation in the constructor
that can raise is `cdist` on a non rectangular input, hence the `Option`. -/
def moeadInit (ref_dirs : List (List Rat)) (n_neighbors : Int)
    (prob_neighbor_mating : Rat) : Option MOEADConfig :=
  if isRect ref_dirs then
    some { ref_dirs := ref_dirs
           n_neighbors := min (ref_dirs.length : Int) n_neighbors
           prob_neighbor_mating := prob_neighbor_mating
           neighbors :=
             mkNeighbors ref_dirs (min (ref_dirs.length : Int) n_neighbors)
           pop_size := ref_dirs.length }
  else none

/-- The collaborator contract of a problem: objective count and a
constraint-presence flag. -/
structure Problem where
  n_obj : Nat
  has_constraints : Bool
deriving DecidableEq

/-- Lines 91-92 of the source, `MOEAD._setup`: the assertion that the problem
has no constraints; an `assert` failure is a raised exception. -/
def moeadSetup (problem : Problem) : Except String Unit :=
  if problem.has_constraints then
    Except.error "This implementation of MOEAD does not support any constraints."
  else Except.ok ()

/-- The `decomposition` argument: either a name string or a ready instance. -/
inductive DecompositionSetting where
  | byName : String → DecompositionSetting
  | byInstance : DecompFn → DecompositionSetting

/-- The resolved `_decomposition` attribute: either a factory call
`get_decomposition(name)` (the factory itself is an external collaborator) or
the instance that was supplied. -/
inductive ResolvedDecomposition where
  | factory : String → ResolvedDecomposition
  | supplied : DecompFn → ResolvedDecomposition

/-- Lines 97-111 of the source, the decomposition resolution inside
`MOEAD._post_initialize`: a string `'auto'` becomes `'tchebi'` for at most two
objectives and `'pbi'` otherwise, any string is passed to the factory, and a
non string instance is used as supplied. -/
def postInitDecomp (setting : DecompositionSetting) (n_obj : Nat) :
    ResolvedDecomposition :=
  match setting with
  | DecompositionSetting.byName s =>
      let decomp := if s = "auto" then (if n_obj <= 2 then "tchebi" else "pbi") else s
      ResolvedDecomposition.factory decomp
  | DecompositionSetting.byInstance f => ResolvedDecomposition.supplied f

/-- `np.min(rows, axis=0)`: the coordinate-wise minimum over the rows; raises
on an empty array, hence the `Option`. -/
def minRows (rows : List (List Rat)) : Option (List Rat) :=
  match rows with
  | [] => none
  | r :: rs => some (rs.foldl (fun acc s => List.zipWith min acc s) r)

/-- Line 95 of the source: `self.ideal = np.min(self.pop.get("F"), axis=0)`. -/
def initIdeal (pop : List Individual) : Option (List Rat) :=
  minRows (pop.map Individual.F)

/-- Lines 132 and 179 of the source:
`np.min(np.vstack([ideal, F rows]), axis=0)`, the coordinate-wise minimum of
the current ideal point and the newly observed objective vectors. -/
def updateIdeal (ideal : List Rat) (fs : List (List Rat)) : List Rat :=
  fs.foldl (fun acc f => List.zipWith min acc f) ideal

/-- Lines 137-153 of the source, `MOEAD._replace`: for the neighbor row `N` of
subproblem `i`, score every incumbent and the offspring under each neighbor
weight vector and the current ideal point, and assign the offspring object to
every slot where its score is strictly smaller (`pop[N[I]] = off` writes the
same object at each selected index, one index at a time). -/
def replaceStep (decomp : DecompFn) (ref_dirs : List (List Rat))
    (neighbors : List (List Nat)) (ideal : List Rat)
    (pop : List Individual) (i : Nat) (off : Individual) : List Individual :=
  let N := neighbors.getD i []
  let FV := N.map (fun n => decomp (pop.getD n default).F (ref_dirs.getD n []) ideal)
  let off_FV := N.map (fun n => decomp off.F (ref_dirs.getD n []) ideal)
  let I := (List.range N.length).filter
    (fun j => decide (off_FV.getD j 0 < FV.getD j 0))
  I.foldl (fun p j => p.set (N.getD j 0) off) pop

/-- The mutable state the two engines act on: the population and the ideal
point. -/
structure AlgoState where
  pop : List Individual
  ideal : List Rat
deriving DecidableEq

/-- Lines 120-135 of the source, one iteration of the loop in
`MOEAD._advance`: the offspring produced by the external mating and
evaluation collaborators for anchor `i` first updates the ideal point, then
`_replace` runs with the just updated ideal point. -/
def sequentialStep (decomp : DecompFn) (ref_dirs : List (List Rat))
    (neighbors : List (List Nat)) (st : AlgoState) (i : Nat)
    (off : Individual) : AlgoState :=
  let ideal := updateIdeal st.ideal [off.F]
  { pop := replaceStep decomp ref_dirs neighbors ideal st.pop i off
    ideal := ideal }

/-- `MOEAD._advance`: iterate `sequentialStep` over the visitation plan, the
list of (anchor index, offspring) pairs in visitation order. -/
def sequentialAdvance (decomp : DecompFn) (ref_dirs : List (List Rat))
    (neighbors : List (List Nat)) (st : AlgoState)
    (plan : List (Nat × Individual)) : AlgoState :=
  plan.foldl (fun s p => sequentialStep decomp ref_dirs neighbors s p.1 p.2) st

/-- Lines 176-184 of the source, `ParallelMOEAD._advance`: update the ideal
point once from the objective vectors of the whole batch, then run `_replace`
for every tagged offspring in batch order, all with that one ideal point. -/
def parallelAdvance (decomp : DecompFn) (ref_dirs : List (List Rat))
    (neighbors : List (List Nat)) (st : AlgoState)
    (infills : List (Nat × Individual)) : AlgoState :=
  let ideal := updateIdeal st.ideal (infills.map (fun p => p.2.F))
  { pop := infills.foldl
      (fun p q => replaceStep decomp ref_dirs neighbors ideal p q.1 q.2) st.pop
    ideal := ideal }

/-- The randomness one selection request consumes: the uniform draw
`np.random.random()`, the shuffled positions behind
`np.random.choice(N[j], n, replace=False)` (a permutation of the positions of
the neighbor row), and the shuffled population indices behind
`np.random.permutation(len(pop))`. -/
structure Draw where
  u : Rat
  shuffleNeighbors : List Nat
  shufflePop : List Nat
deriving DecidableEq

instance : Inhabited Draw := ⟨⟨0, [], []⟩⟩

/-- `np.random.choice(a, n, replace=False)`: take the first `n` positions of
the shuffled position list and read `a` there. -/
def chooseWithoutReplacement (a : List Nat) (n : Nat) (shuffle : List Nat) :
    List Nat :=
  (shuffle.take n).map (fun p => a.getD p 0)

/-- Lines 35-39 of the source, the body of the loop of
`NeighborhoodSelection._do` for one request anchored at `j`: with the fresh
uniform draw below `prob` sample the parents from the neighbor row of `j`
without replacement, otherwise take a prefix of a fresh permutation of the
whole population index range. -/
def selectionRequest (neighbors : List (List Nat)) (prob : Rat)
    (n_parents : Nat) (j : Nat) (d : Draw) : List Nat :=
  if d.u < prob then
    chooseWithoutReplacement (neighbors.getD j []) n_parents d.shuffleNeighbors
  else
    d.shufflePop.take n_parents

/-- Lines 27-41 of the source, `NeighborhoodSelection._do` with the anchors
`ks` given (the `k=None` branch only applies when the caller passes no
anchors): one row per anchor, each built from its own `Draw`. -/
def selectionDo (neighbors : List (List Nat)) (prob : Rat) (n_parents : Nat)
    (ks : List Nat) (draws : List Draw) : List (List Nat) :=
  List.zipWith (selectionRequest neighbors prob n_parents) ks draws

/-! ### List helper lemmas -/

theorem getD_eq_getElem {α : Type} (l : List α) (j : Nat) (hj : j < l.length)
    (d : α) : l.getD j d = l[j] := by
  rw [List.getD_eq_getElem?_getD, List.getElem?_eq_getElem hj]
  rfl

theorem getD_map_of_lt {α β : Type} (l : List α) (g : α → β) (j : Nat)
    (hj : j < l.length) (da : α) (db : β) :
    (l.map g).getD j db = g (l.getD j da) := by
  rw [getD_eq_getElem (l.map g) j (by simpa using hj), List.getElem_map,
    getD_eq_getElem l j hj]

theorem getD_zipWith_min (a b : List Rat) (k : Nat) (hka : k < a.length)
    (hkb : k < b.length) :
    (List.zipWith min a b).getD k 0 = min (a.getD k 0) (b.getD k 0) := by
  have hk : k < (List.zipWith min a b).length := by
    rw [List.length_zipWith]
    omega
  rw [getD_eq_getElem _ k hk, List.getElem_zipWith, getD_eq_getElem a k hka,
    getD_eq_getElem b k hkb]

theorem foldl_set_getElem? (ps : List Nat) (pop : List MoeadSpec.Individual)
    (off : MoeadSpec.Individual) (hb : ∀ s ∈ ps, s < pop.length) (t : Nat) :
    (ps.foldl (fun p s => p.set s off) pop)[t]? =
      if t ∈ ps then some off else pop[t]? := by
  induction ps generalizing pop with
  | nil => simp
  | cons s rest ih =>
    have hb' : ∀ x ∈ rest, x < (pop.set s off).length := by
      intro x hx
      rw [List.length_set]
      exact hb x (List.mem_cons_of_mem s hx)
    rw [List.foldl_cons, ih (pop.set s off) hb']
    by_cases hmem : t ∈ rest
    · simp [hmem]
    · have hs : s < pop.length := hb s (List.mem_cons_self s rest)
      by_cases hts : t = s
      · subst hts
        simp [hmem, List.getElem?_set, hs]
      · have : t ∉ (s :: rest) := by
          intro hc
          rcases List.mem_cons.mp hc with h1 | h2
          · exact hts h1
          · exact hmem h2
        simp only [hmem, if_false, this, List.getElem?_set]
        have : ¬ s = t := fun h => hts h.symm
        simp [this]

theorem foldl_set_length (ps : List Nat) (pop : List MoeadSpec.Individual)
    (off : MoeadSpec.Individual) :
    (ps.foldl (fun p s => p.set s off) pop).length = pop.length := by
  induction ps generalizing pop with
  | nil => rfl
  | cons s rest ih =>
    rw [List.foldl_cons, ih (pop.set s off), List.length_set]

theorem foldl_set_map_indices (N : List Nat) (I : List Nat)
    (pop : List Individual) (off : Individual) :
    I.foldl (fun p t => p.set (N.getD t 0) off) pop =
      (I.map (fun t => N.getD t 0)).foldl (fun p s => p.set s off) pop := by
  induction I generalizing pop with
  | nil => rfl
  | cons t rest ih => simp only [List.foldl_cons, List.map_cons, ih]

theorem foldl_filter_set_getElem (N : List Nat) (cond : Nat → Bool)
    (pop : List Individual) (off : Individual)
    (hnd : N.Nodup) (hb : ∀ s ∈ N, s < pop.length)
    (j : Nat) (hj : j < N.length) :
    (((List.range N.length).filter cond).foldl
        (fun p t => p.set (N.getD t 0) off) pop)[N.getD j 0]? =
      some (if cond j = true then off else pop.getD (N.getD j 0) default) := by
  rw [foldl_set_map_indices]
  have hb' : ∀ s ∈ ((List.range N.length).filter cond).map (fun t => N.getD t 0),
      s < pop.length := by
    intro s hs
    rcases List.mem_map.mp hs with ⟨t, htI, heq⟩
    have ht : t < N.length := List.mem_range.mp (List.mem_filter.mp htI).1
    have hmemN : N.getD t 0 ∈ N := by
      rw [getD_eq_getElem N t ht 0]
      exact List.getElem_mem ht
    exact heq ▸ hb _ hmemN
  rw [foldl_set_getElem? _ pop off hb' (N.getD j 0)]
  have hbj : N.getD j 0 < pop.length := by
    apply hb
    rw [getD_eq_getElem N j hj 0]
    exact List.getElem_mem hj
  have hmem : (N.getD j 0 ∈
      ((List.range N.length).filter cond).map (fun t => N.getD t 0)) ↔
      cond j = true := by
    constructor
    · intro h
      rcases List.mem_map.mp h with ⟨t, htI, heq⟩
      rcases List.mem_filter.mp htI with ⟨htr, hcond⟩
      have ht : t < N.length := List.mem_range.mp htr
      have hgeq : N[t] = N[j] := by
        rw [← getD_eq_getElem N t ht 0, ← getD_eq_getElem N j hj 0, heq]
      have htj : t = j := (List.Nodup.getElem_inj_iff hnd).mp hgeq
      rwa [htj] at hcond
    · intro h
      exact List.mem_map.mpr
        ⟨j, List.mem_filter.mpr ⟨List.mem_range.mpr hj, h⟩, rfl⟩
  by_cases hc : cond j = true
  · rw [if_pos (hmem.mpr hc), if_pos hc]
  · rw [if_neg (fun h => hc (hmem.mp h)), if_neg hc,
      List.getElem?_eq_getElem hbj, getD_eq_getElem pop _ hbj default]

theorem replaceStep_getElem (decomp : DecompFn) (ref_dirs : List (List Rat))
    (neighbors : List (List Nat)) (ideal : List Rat)
    (pop : List Individual) (i : Nat) (off : Individual)
    (hnd : (neighbors.getD i []).Nodup)
    (hb : ∀ s ∈ neighbors.getD i [], s < pop.length)
    (j : Nat) (hj : j < (neighbors.getD i []).length) :
    (replaceStep decomp ref_dirs neighbors ideal pop i off)[(neighbors.getD i []).getD j 0]? =
      some (if decomp off.F (ref_dirs.getD ((neighbors.getD i []).getD j 0) []) ideal <
              decomp (pop.getD ((neighbors.getD i []).getD j 0) default).F
                (ref_dirs.getD ((neighbors.getD i []).getD j 0) []) ideal
            then off
            else pop.getD ((neighbors.getD i []).getD j 0) default) := by
  simp only [replaceStep]
  rw [foldl_filter_set_getElem (neighbors.getD i [])
    (fun t => decide
      (((neighbors.getD i []).map
          (fun n => decomp off.F (ref_dirs.getD n []) ideal)).getD t 0 <
        ((neighbors.getD i []).map
          (fun n => decomp (pop.getD n default).F (ref_dirs.getD n []) ideal)).getD t 0))
    pop off hnd hb j hj]
  simp only [decide_eq_true_eq]
  rw [getD_map_of_lt (neighbors.getD i [])
      (fun n => decomp off.F (ref_dirs.getD n []) ideal) j hj 0 0,
    getD_map_of_lt (neighbors.getD i [])
      (fun n => decomp (pop.getD n default).F (ref_dirs.getD n []) ideal) j hj 0 0]

theorem replaceStep_length (decomp : DecompFn) (ref_dirs : List (List Rat))
    (neighbors : List (List Nat)) (ideal : List Rat)
    (pop : List Individual) (i : Nat) (off : Individual) :
    (replaceStep decomp ref_dirs neighbors ideal pop i off).length = pop.length := by
  simp only [replaceStep]
  rw [foldl_set_map_indices]
  exact foldl_set_length _ pop off

theorem foldl_min_le_init : ∀ (l : List Rat) (a : Rat), l.foldl min a <= a := by
  intro l
  induction l with
  | nil => intro a; exact le_refl a
  | cons x xs ih =>
    intro a
    calc (x :: xs).foldl min a = xs.foldl min (min a x) := rfl
    _ <= min a x := ih (min a x)
    _ <= a := min_le_left a x

theorem foldl_min_le_mem : ∀ (l : List Rat) (a x : Rat), x ∈ l →
    l.foldl min a <= x := by
  intro l
  induction l with
  | nil => intro a x hx; cases hx
  | cons y ys ih =>
    intro a x hx
    rcases List.mem_cons.mp hx with h1 | h2
    · subst h1
      calc (x :: ys).foldl min a = ys.foldl min (min a x) := rfl
      _ <= min a x := foldl_min_le_init ys (min a x)
      _ <= x := min_le_right a x
    · exact ih (min a y) x h2

theorem updateIdeal_length (ideal : List Rat) (fs : List (List Rat))
    (h : ∀ f ∈ fs, f.length = ideal.length) :
    (updateIdeal ideal fs).length = ideal.length := by
  induction fs generalizing ideal with
  | nil => rfl
  | cons f rest ih =>
    have hf : f.length = ideal.length := h f (List.mem_cons_self f rest)
    have hzip : (List.zipWith min ideal f).length = ideal.length := by
      rw [List.length_zipWith, hf]
      exact min_self _
    have hrest : ∀ g ∈ rest, g.length = (List.zipWith min ideal f).length := by
      intro g hg
      rw [hzip]
      exact h g (List.mem_cons_of_mem f hg)
    calc (updateIdeal ideal (f :: rest)).length
        = (updateIdeal (List.zipWith min ideal f) rest).length := rfl
      _ = (List.zipWith min ideal f).length := ih _ hrest
      _ = ideal.length := hzip

theorem updateIdeal_getD (ideal : List Rat) (fs : List (List Rat))
    (h : ∀ f ∈ fs, f.length = ideal.length) (k : Nat) (hk : k < ideal.length) :
    (updateIdeal ideal fs).getD k 0 =
      (fs.map (fun f => f.getD k 0)).foldl min (ideal.getD k 0) := by
  induction fs generalizing ideal with
  | nil => rfl
  | cons f rest ih =>
    have hf : f.length = ideal.length := h f (List.mem_cons_self f rest)
    have hzip : (List.zipWith min ideal f).length = ideal.length := by
      rw [List.length_zipWith, hf]
      exact min_self _
    have hrest : ∀ g ∈ rest, g.length = (List.zipWith min ideal f).length := by
      intro g hg
      rw [hzip]
      exact h g (List.mem_cons_of_mem f hg)
    have hk' : k < (List.zipWith min ideal f).length := by rw [hzip]; exact hk
    calc (updateIdeal ideal (f :: rest)).getD k 0
        = (updateIdeal (List.zipWith min ideal f) rest).getD k 0 := rfl
      _ = (rest.map (fun g => g.getD k 0)).foldl min
            ((List.zipWith min ideal f).getD k 0) := ih _ hrest hk'
      _ = (rest.map (fun g => g.getD k 0)).foldl min
            (min (ideal.getD k 0) (f.getD k 0)) := by
            rw [getD_zipWith_min ideal f k hk (hf ▸ hk)]
      _ = ((f :: rest).map (fun g => g.getD k 0)).foldl min (ideal.getD k 0) := rfl

theorem sequentialAdvance_ideal (decomp : DecompFn) (ref_dirs : List (List Rat))
    (neighbors : List (List Nat)) (plan : List (Nat × Individual))
    (st : AlgoState) (h : ∀ p ∈ plan, p.2.F.length = st.ideal.length) :
    (sequentialAdvance decomp ref_dirs neighbors st plan).ideal.length = st.ideal.length ∧
    ∀ k, k < st.ideal.length →
      (sequentialAdvance decomp ref_dirs neighbors st plan).ideal.getD k 0 <=
        st.ideal.getD k 0 := by
  induction plan generalizing st with
  | nil => exact ⟨rfl, fun k _ => le_refl _⟩
  | cons p rest ih =>
    have hf : p.2.F.length = st.ideal.length := h p (List.mem_cons_self p rest)
    have hstep :
        (sequentialStep decomp ref_dirs neighbors st p.1 p.2).ideal =
          List.zipWith min st.ideal p.2.F := rfl
    have hlen :
        (sequentialStep decomp ref_dirs neighbors st p.1 p.2).ideal.length =
          st.ideal.length := by
      rw [hstep, List.length_zipWith, hf]
      exact min_self _
    have hrest : ∀ q ∈ rest,
        q.2.F.length =
          (sequentialStep decomp ref_dirs neighbors st p.1 p.2).ideal.length := by
      intro q hq
      rw [hlen]
      exact h q (List.mem_cons_of_mem p hq)
    have hadv :
        sequentialAdvance decomp ref_dirs neighbors st (p :: rest) =
          sequentialAdvance decomp ref_dirs neighbors
            (sequentialStep decomp ref_dirs neighbors st p.1 p.2) rest := rfl
    rcases ih (sequentialStep decomp ref_dirs neighbors st p.1 p.2) hrest with
      ⟨ihlen, ihle⟩
    constructor
    · rw [hadv, ihlen, hlen]
    · intro k hk
      have hk' : k < (sequentialStep decomp ref_dirs neighbors st p.1 p.2).ideal.length := by
        rw [hlen]; exact hk
      have h1 := ihle k hk'
      have h2 : (sequentialStep decomp ref_dirs neighbors st p.1 p.2).ideal.getD k 0 <=
          st.ideal.getD k 0 := by
        rw [hstep, getD_zipWith_min st.ideal p.2.F k hk (hf ▸ hk)]
        exact min_le_left _ _
      rw [hadv]
      exact le_trans h1 h2

theorem sqDist_self (d : List Rat) : sqDist d d = 0 := by
  induction d with
  | nil => rfl
  | cons x xs ih =>
    simp only [sqDist, List.zipWith_cons_cons, List.sum_cons, sub_self]
    simp only [sqDist] at ih
    rw [ih]
    ring

theorem sqDist_nonneg (a : List Rat) : ∀ b : List Rat, 0 <= sqDist a b := by
  induction a with
  | nil => intro b; cases b <;> simp [sqDist]
  | cons x xs ih =>
    intro b
    cases b with
    | nil => simp [sqDist]
    | cons y ys =>
      simp only [sqDist, List.zipWith_cons_cons, List.sum_cons]
      exact add_nonneg (sq_nonneg _) (ih ys)

theorem sqDist_eq_zero (a : List Rat) : ∀ b : List Rat, a.length = b.length →
    sqDist a b = 0 → a = b := by
  induction a with
  | nil =>
    intro b hlen _
    cases b with
    | nil => rfl
    | cons y ys => simp at hlen
  | cons x xs ih =>
    intro b hlen h
    cases b with
    | nil => simp at hlen
    | cons y ys =>
      simp only [sqDist, List.zipWith_cons_cons, List.sum_cons] at h
      have h1 : (0:Rat) <= (x - y) ^ 2 := sq_nonneg _
      have h2 : (0:Rat) <=
          (List.zipWith (fun p q => (p - q) ^ 2) xs ys).sum := sqDist_nonneg xs ys
      have hx : (x - y) ^ 2 = 0 := by linarith
      have hs : (List.zipWith (fun p q => (p - q) ^ 2) xs ys).sum = 0 := by linarith
      have hxy : x = y := sub_eq_zero.mp (sq_eq_zero_iff.mp hx)
      have hlen' : xs.length = ys.length := by
        simpa using hlen
      have hxs : xs = ys := ih ys hlen' hs
      rw [hxy, hxs]

theorem argsort_perm (keys : List Rat) :
    (argsort keys).Perm (List.range keys.length) :=
  List.perm_insertionSort _ _

theorem argsort_sorted (keys : List Rat) :
    List.Sorted (fun s t => keys.getD s 0 <= keys.getD t 0) (argsort keys) := by
  haveI : IsTotal Nat (fun s t => keys.getD s 0 <= keys.getD t 0) :=
    ⟨fun a b => le_total _ _⟩
  haveI : IsTrans Nat (fun s t => keys.getD s 0 <= keys.getD t 0) :=
    ⟨fun a b c hab hbc => le_trans hab hbc⟩
  exact List.sorted_insertionSort _ _

theorem argsort_length (keys : List Rat) :
    (argsort keys).length = keys.length := by
  rw [(argsort_perm keys).length_eq, List.length_range]

theorem argsort_head (keys : List Rat) (i : Nat) (hi : i < keys.length)
    (hmin : ∀ j, j < keys.length → j ≠ i → keys.getD i 0 < keys.getD j 0) :
    ∃ t, argsort keys = i :: t := by
  have hperm := argsort_perm keys
  have hmem : i ∈ argsort keys := hperm.mem_iff.mpr (List.mem_range.mpr hi)
  cases hl : argsort keys with
  | nil => rw [hl] at hmem; cases hmem
  | cons h t =>
    refine ⟨t, ?_⟩
    have hsort := argsort_sorted keys
    rw [hl] at hsort hmem hperm
    rcases List.sorted_cons.mp hsort with ⟨hhead, _⟩
    rcases List.mem_cons.mp hmem with h1 | h2
    · rw [h1]
    · have hh : h < keys.length :=
        List.mem_range.mp (hperm.subset (List.mem_cons_self h t))
      by_cases hhi : h = i
      · rw [hhi]
      · exact absurd (hhead i h2) (not_le.mpr (hmin h hh hhi))

theorem foldl_replace_length (decomp : DecompFn) (ref_dirs : List (List Rat))
    (neighbors : List (List Nat)) (ideal : List Rat)
    (l : List (Nat × Individual)) (pop : List Individual) :
    (l.foldl (fun p q => replaceStep decomp ref_dirs neighbors ideal p q.1 q.2)
        pop).length = pop.length := by
  induction l generalizing pop with
  | nil => rfl
  | cons q rest ih =>
    rw [List.foldl_cons, ih, replaceStep_length]

theorem sequentialAdvance_pop_length (decomp : DecompFn)
    (ref_dirs : List (List Rat)) (neighbors : List (List Nat))
    (plan : List (Nat × Individual)) (st : AlgoState) :
    (sequentialAdvance decomp ref_dirs neighbors st plan).pop.length =
      st.pop.length := by
  induction plan generalizing st with
  | nil => rfl
  | cons p rest ih =>
    have hadv : sequentialAdvance decomp ref_dirs neighbors st (p :: rest) =
        sequentialAdvance decomp ref_dirs neighbors
          (sequentialStep decomp ref_dirs neighbors st p.1 p.2) rest := rfl
    rw [hadv, ih]
    exact replaceStep_length _ _ _ _ _ _ _

/-! ### The claims -/

/-- C1: in the replacement step, for the target subproblem `i` with neighbor
row `N`, the slot of each neighbor position `j` holds the offspring after the
step if the offspring scores strictly below the incumbent under the weight
vector of neighbor `j` and the active ideal point, and still holds the
incumbent otherwise; ties never replace, and one offspring may win several
positions or none. -/
theorem moead_replace_strict_improvement (decomp : DecompFn)
    (ref_dirs : List (List Rat)) (neighbors : List (List Nat))
    (ideal : List Rat) (pop : List Individual) (i : Nat) (off : Individual)
    (j : Nat) (hnd : (neighbors.getD i []).Nodup)
    (hb : ∀ s ∈ neighbors.getD i [], s < pop.length)
    (hj : j < (neighbors.getD i []).length) :
    (replaceStep decomp ref_dirs neighbors ideal pop i off).getD
        ((neighbors.getD i []).getD j 0) default =
      if decomp off.F (ref_dirs.getD ((neighbors.getD i []).getD j 0) []) ideal <
          decomp (pop.getD ((neighbors.getD i []).getD j 0) default).F
            (ref_dirs.getD ((neighbors.getD i []).getD j 0) []) ideal
      then off
      else pop.getD ((neighbors.getD i []).getD j 0) default := by
  have h := replaceStep_getElem decomp ref_dirs neighbors ideal pop i off
    hnd hb j hj
  rw [List.getD_eq_getElem?_getD, h]
  rfl

/-- C2: every ideal-point update (single offspring in the sequential engine,
whole batch in the batched engine) is the coordinate-wise minimum of the
current ideal point and the newly observed objective vectors, and along any
sequence of updates of either engine each coordinate of the ideal point never
increases. -/
theorem moead_ideal_point_monotone (decomp : DecompFn)
    (ref_dirs : List (List Rat)) (neighbors : List (List Nat))
    (ideal : List Rat) (fs : List (List Rat)) (st : AlgoState)
    (plan : List (Nat × Individual)) (k : Nat)
    (hfs : ∀ f ∈ fs, f.length = ideal.length)
    (hplan : ∀ p ∈ plan, p.2.F.length = st.ideal.length) :
    (k < ideal.length →
      (updateIdeal ideal fs).getD k 0 =
        (fs.map (fun f => f.getD k 0)).foldl min (ideal.getD k 0) ∧
      (updateIdeal ideal fs).getD k 0 <= ideal.getD k 0 ∧
      ∀ f ∈ fs, (updateIdeal ideal fs).getD k 0 <= f.getD k 0) ∧
    (k < st.ideal.length →
      (sequentialAdvance decomp ref_dirs neighbors st plan).ideal.getD k 0 <=
        st.ideal.getD k 0 ∧
      (parallelAdvance decomp ref_dirs neighbors st plan).ideal.getD k 0 <=
        st.ideal.getD k 0) := by
  constructor
  · intro hk
    have hchar := updateIdeal_getD ideal fs hfs k hk
    refine ⟨hchar, ?_, ?_⟩
    · rw [hchar]
      exact foldl_min_le_init _ _
    · intro f hf
      rw [hchar]
      exact foldl_min_le_mem _ _ _ (List.mem_map.mpr ⟨f, hf, rfl⟩)
  · intro hk
    constructor
    · exact (sequentialAdvance_ideal decomp ref_dirs neighbors plan st hplan).2 k hk
    · have hpar : (parallelAdvance decomp ref_dirs neighbors st plan).ideal =
          updateIdeal st.ideal (plan.map (fun p => p.2.F)) := rfl
      have hmap : ∀ f ∈ plan.map (fun p => p.2.F), f.length = st.ideal.length := by
        intro f hf
        rcases List.mem_map.mp hf with ⟨p, hp, heq⟩
        exact heq ▸ hplan p hp
      rw [hpar, updateIdeal_getD st.ideal _ hmap k hk]
      exact foldl_min_le_init _ _

/-- C4: in the batched engine one generation first updates the ideal point
exactly once from the objective vectors of the entire batch (its value is the
coordinate-wise minimum over the old ideal point and all batch vectors), and
then applies the replacement steps in batch order, every one of them against
that single batch-updated ideal point. -/
theorem moead_parallel_single_batch_ideal (decomp : DecompFn)
    (ref_dirs : List (List Rat)) (neighbors : List (List Nat))
    (st : AlgoState) (infills : List (Nat × Individual)) (k : Nat)
    (hlen : ∀ p ∈ infills, p.2.F.length = st.ideal.length)
    (hk : k < st.ideal.length) :
    (parallelAdvance decomp ref_dirs neighbors st infills).ideal =
      updateIdeal st.ideal (infills.map (fun p => p.2.F)) ∧
    (parallelAdvance decomp ref_dirs neighbors st infills).pop =
      infills.foldl
        (fun p q => replaceStep decomp ref_dirs neighbors
          (updateIdeal st.ideal (infills.map (fun r => r.2.F))) p q.1 q.2)
        st.pop ∧
    (updateIdeal st.ideal (infills.map (fun p => p.2.F))).getD k 0 =
      ((infills.map (fun p => p.2.F)).map (fun f => f.getD k 0)).foldl min
        (st.ideal.getD k 0) := by
  refine ⟨rfl, rfl, ?_⟩
  have hmap : ∀ f ∈ infills.map (fun p => p.2.F), f.length = st.ideal.length := by
    intro f hf
    rcases List.mem_map.mp hf with ⟨p, hp, heq⟩
    exact heq ▸ hlen p hp
  exact updateIdeal_getD st.ideal _ hmap k hk

/-- C7: core setup fails fatally exactly on problems whose
constraint-presence flag is set, and raises nothing otherwise. -/
theorem moead_setup_constraint_check :
    ∀ p : Problem,
      (moeadSetup p = Except.ok () ↔ p.has_constraints = false) ∧
      (moeadSetup p =
          Except.error
            "This implementation of MOEAD does not support any constraints." ↔
        p.has_constraints = true) := by
  intro p
  cases hp : p.has_constraints <;> simp [moeadSetup, hp]

/-- C8: a decomposition configured as the string `auto` resolves to the
Tchebycheff scalarization exactly when the problem has at most two
objectives and to PBI otherwise, and an instance is used as supplied. -/
theorem moead_auto_decomposition_resolution :
    ∀ (n_obj : Nat) (f : DecompFn),
      (postInitDecomp (DecompositionSetting.byName "auto") n_obj =
          ResolvedDecomposition.factory "tchebi" ↔ n_obj <= 2) ∧
      (postInitDecomp (DecompositionSetting.byName "auto") n_obj =
          ResolvedDecomposition.factory "pbi" ↔ 2 < n_obj) ∧
      postInitDecomp (DecompositionSetting.byInstance f) n_obj =
        ResolvedDecomposition.supplied f := by
  intro n f
  by_cases h : n <= 2
  · simp [postInitDecomp, h]
  · simp [postInitDecomp, h]
    omega

/-- C9: the configuration built at setup fixes the population size to the
number of reference directions and gives the neighbor table one row per
direction, and neither the replacement step nor a generation of either
engine changes the population length. -/
theorem moead_population_size_invariant (dirs : List (List Rat)) (K : Int)
    (prob : Rat) (cfg : MOEADConfig)
    (hcfg : moeadInit dirs K prob = some cfg) :
    cfg.pop_size = dirs.length ∧ cfg.neighbors.length = dirs.length ∧
    (∀ (decomp : DecompFn) (ideal : List Rat) (pop : List Individual)
        (i : Nat) (off : Individual),
      (replaceStep decomp cfg.ref_dirs cfg.neighbors ideal pop i off).length =
        pop.length) ∧
    (∀ (decomp : DecompFn) (st : AlgoState) (plan : List (Nat × Individual)),
      (sequentialAdvance decomp cfg.ref_dirs cfg.neighbors st plan).pop.length =
        st.pop.length) ∧
    (∀ (decomp : DecompFn) (st : AlgoState) (infills : List (Nat × Individual)),
      (parallelAdvance decomp cfg.ref_dirs cfg.neighbors st infills).pop.length =
        st.pop.length) := by
  have hcfg' : cfg.pop_size = dirs.length ∧ cfg.neighbors.length = dirs.length := by
    by_cases hr : isRect dirs
    · rw [moeadInit, if_pos hr] at hcfg
      cases hcfg
      exact ⟨rfl, List.length_map _ _⟩
    · rw [moeadInit, if_neg hr] at hcfg
      cases hcfg
  refine ⟨hcfg'.1, hcfg'.2, ?_, ?_, ?_⟩
  · intro decomp ideal pop i off
    exact replaceStep_length _ _ _ _ _ _ _
  · intro decomp st plan
    exact sequentialAdvance_pop_length _ _ _ _ _
  · intro decomp st infills
    exact foldl_replace_length _ _ _ _ _ _

/-- C10: when one replacement step lets the offspring win several neighbor
positions, every winning slot holds the one offspring individual itself
(same tag, same decision vector, same objective vector), not a distinct
copy per slot. -/
theorem moead_shared_offspring_slots (decomp : DecompFn)
    (ref_dirs : List (List Rat)) (neighbors : List (List Nat))
    (ideal : List Rat) (pop : List Individual) (i : Nat) (off : Individual)
    (j j' : Nat) (hnd : (neighbors.getD i []).Nodup)
    (hb : ∀ s ∈ neighbors.getD i [], s < pop.length)
    (hj : j < (neighbors.getD i []).length)
    (hj' : j' < (neighbors.getD i []).length)
    (hwin : decomp off.F (ref_dirs.getD ((neighbors.getD i []).getD j 0) []) ideal <
      decomp (pop.getD ((neighbors.getD i []).getD j 0) default).F
        (ref_dirs.getD ((neighbors.getD i []).getD j 0) []) ideal)
    (hwin' : decomp off.F (ref_dirs.getD ((neighbors.getD i []).getD j' 0) []) ideal <
      decomp (pop.getD ((neighbors.getD i []).getD j' 0) default).F
        (ref_dirs.getD ((neighbors.getD i []).getD j' 0) []) ideal) :
    (replaceStep decomp ref_dirs neighbors ideal pop i off).getD
        ((neighbors.getD i []).getD j 0) default = off ∧
    (replaceStep decomp ref_dirs neighbors ideal pop i off).getD
        ((neighbors.getD i []).getD j' 0) default = off ∧
    (replaceStep decomp ref_dirs neighbors ideal pop i off).getD
        ((neighbors.getD i []).getD j 0) default =
      (replaceStep decomp ref_dirs neighbors ideal pop i off).getD
        ((neighbors.getD i []).getD j' 0) default := by
  have h1 := replaceStep_getElem decomp ref_dirs neighbors ideal pop i off
    hnd hb j hj
  have h2 := replaceStep_getElem decomp ref_dirs neighbors ideal pop i off
    hnd hb j' hj'
  rw [if_pos hwin] at h1
  rw [if_pos hwin'] at h2
  have e1 : (replaceStep decomp ref_dirs neighbors ideal pop i off).getD
      ((neighbors.getD i []).getD j 0) default = off := by
    rw [List.getD_eq_getElem?_getD, h1]
    rfl
  have e2 : (replaceStep decomp ref_dirs neighbors ideal pop i off).getD
      ((neighbors.getD i []).getD j' 0) default = off := by
    rw [List.getD_eq_getElem?_getD, h2]
    rfl
  exact ⟨e1, e2, by rw [e1, e2]⟩

theorem take_perm_range (s : List Nat) (L n : Nat)
    (hs : s.Perm (List.range L)) (hn : n <= L) :
    (s.take n).length = n ∧ (s.take n).Nodup ∧ ∀ x ∈ s.take n, x < L := by
  have hlen : s.length = L := by rw [hs.length_eq, List.length_range]
  refine ⟨?_, ?_, ?_⟩
  · rw [List.length_take, hlen]
    exact min_eq_left hn
  · exact List.Nodup.sublist (List.take_sublist n s)
      (hs.nodup_iff.mpr (List.nodup_range L))
  · intro x hx
    exact List.mem_range.mp (hs.subset ((List.take_sublist n s).subset hx))

theorem chooseWithoutReplacement_spec (A : List Nat) (n : Nat) (s : List Nat)
    (hA : A.Nodup) (hs : s.Perm (List.range A.length)) (hn : n <= A.length) :
    (chooseWithoutReplacement A n s).length = n ∧
    (chooseWithoutReplacement A n s).Nodup ∧
    ∀ x ∈ chooseWithoutReplacement A n s, x ∈ A := by
  rcases take_perm_range s A.length n hs hn with ⟨hl, hnd, hb⟩
  refine ⟨?_, ?_, ?_⟩
  · rw [chooseWithoutReplacement, List.length_map, hl]
  · refine List.Nodup.map_on ?_ hnd
    intro p hp q hq heq
    have hpl : p < A.length := hb p hp
    have hql : q < A.length := hb q hq
    rw [getD_eq_getElem A p hpl, getD_eq_getElem A q hql] at heq
    exact (List.Nodup.getElem_inj_iff hA).mp heq
  · intro x hx
    rcases List.mem_map.mp hx with ⟨p, hp, heq⟩
    have hpl : p < A.length := hb p hp
    rw [← heq, getD_eq_getElem A p hpl]
    exact List.getElem_mem hpl

/-- C5: each mating-selection request anchored at `j` consumes one fresh
uniform draw and its own fresh shuffles (request `idx` of a batched call
depends only on anchor `idx` and draw `idx`); below `prob_neighbor_mating`
the returned parents are as many distinct indices sampled without
replacement from the neighbor row of `j`, otherwise as many distinct
indices sampled from the whole population index range. -/
theorem moead_neighborhood_selection_policy (neighbors : List (List Nat))
    (prob : Rat) (pop_len n_parents : Nat) (ks : List Nat) (draws : List Draw)
    (idx : Nat) (j : Nat) (d : Draw)
    (hidx : idx < ks.length) (hlen : ks.length = draws.length)
    (hnodup : (neighbors.getD j []).Nodup)
    (hshN : d.shuffleNeighbors.Perm (List.range (neighbors.getD j []).length))
    (hshP : d.shufflePop.Perm (List.range pop_len))
    (hn1 : n_parents <= (neighbors.getD j []).length)
    (hn2 : n_parents <= pop_len) :
    (selectionDo neighbors prob n_parents ks draws).getD idx [] =
      selectionRequest neighbors prob n_parents (ks.getD idx 0)
        (draws.getD idx default) ∧
    (d.u < prob →
      selectionRequest neighbors prob n_parents j d =
        chooseWithoutReplacement (neighbors.getD j []) n_parents
          d.shuffleNeighbors ∧
      (selectionRequest neighbors prob n_parents j d).length = n_parents ∧
      (selectionRequest neighbors prob n_parents j d).Nodup ∧
      ∀ x ∈ selectionRequest neighbors prob n_parents j d,
        x ∈ neighbors.getD j []) ∧
    (¬ d.u < prob →
      selectionRequest neighbors prob n_parents j d =
        d.shufflePop.take n_parents ∧
      (selectionRequest neighbors prob n_parents j d).length = n_parents ∧
      (selectionRequest neighbors prob n_parents j d).Nodup ∧
      ∀ x ∈ selectionRequest neighbors prob n_parents j d, x < pop_len) := by
  refine ⟨?_, ?_, ?_⟩
  · have hidx' : idx < draws.length := hlen ▸ hidx
    have hz : idx < (List.zipWith (selectionRequest neighbors prob n_parents)
        ks draws).length := by
      rw [List.length_zipWith]
      omega
    rw [selectionDo, getD_eq_getElem _ idx hz, List.getElem_zipWith,
      getD_eq_getElem ks idx hidx, getD_eq_getElem draws idx hidx']
  · intro hu
    have hreq : selectionRequest neighbors prob n_parents j d =
        chooseWithoutReplacement (neighbors.getD j []) n_parents
          d.shuffleNeighbors := by
      rw [selectionRequest, if_pos hu]
    rcases chooseWithoutReplacement_spec (neighbors.getD j []) n_parents
      d.shuffleNeighbors hnodup hshN hn1 with ⟨hl, hnd, hmem⟩
    rw [hreq]
    exact ⟨rfl, hl, hnd, hmem⟩
  · intro hu
    have hreq : selectionRequest neighbors prob n_parents j d =
        d.shufflePop.take n_parents := by
      rw [selectionRequest, if_neg hu]
    rcases take_perm_range d.shufflePop pop_len n_parents hshP hn2 with
      ⟨hl, hnd, hmem⟩
    rw [hreq]
    exact ⟨rfl, hl, hnd, hmem⟩

/-- C3: for pairwise-distinct reference directions (all of the same
dimension) and effective neighborhood size `K` with `1 <= K <= M`, row `i` of
the neighbor table built at setup has exactly `K` entries, contains `i`
itself, and consecutive entries are in non-decreasing order of Euclidean
distance between their direction vectors and direction `i`. -/
theorem moead_neighbor_table_rows (dirs : List (List Rat)) (K : Nat)
    (i t m : Nat) (hrect : ∀ d ∈ dirs, d.length = m) (hnd : dirs.Nodup)
    (hK1 : 1 <= K) (hKM : K <= dirs.length) (hi : i < dirs.length)
    (ht : t + 1 < K) :
    ((mkNeighbors dirs (K : Int)).getD i []).length = K ∧
    i ∈ (mkNeighbors dirs (K : Int)).getD i [] ∧
    Real.sqrt ((sqDist (dirs.getD i [])
        (dirs.getD (((mkNeighbors dirs (K : Int)).getD i []).getD t 0) []) : Rat) : Real) <=
      Real.sqrt ((sqDist (dirs.getD i [])
        (dirs.getD (((mkNeighbors dirs (K : Int)).getD i []).getD (t + 1) 0) []) : Rat) : Real) := by
  have hklen : (cdistRow dirs (dirs.getD i [])).length = dirs.length :=
    List.length_map _ _
  have hkey : ∀ j, j < dirs.length →
      (cdistRow dirs (dirs.getD i [])).getD j 0 =
        sqDist (dirs.getD i []) (dirs.getD j []) := by
    intro j hjj
    exact getD_map_of_lt dirs (fun b => sqDist (dirs.getD i []) b) j hjj [] 0
  have hrow : (mkNeighbors dirs (K : Int)).getD i [] =
      pySlice (K : Int) (argsort (cdistRow dirs (dirs.getD i []))) := by
    rw [mkNeighbors]
    exact getD_map_of_lt dirs _ i hi [] []
  have hslice : pySlice (K : Int) (argsort (cdistRow dirs (dirs.getD i []))) =
      (argsort (cdistRow dirs (dirs.getD i []))).take K := by
    rw [pySlice, if_pos (Int.natCast_nonneg K), Int.toNat_natCast]
  rw [hrow, hslice]
  have halen : (argsort (cdistRow dirs (dirs.getD i []))).length = dirs.length := by
    rw [argsort_length, hklen]
  have hminkey : ∀ jj, jj < (cdistRow dirs (dirs.getD i [])).length → jj ≠ i →
      (cdistRow dirs (dirs.getD i [])).getD i 0 <
        (cdistRow dirs (dirs.getD i [])).getD jj 0 := by
    intro jj hjl hji
    have hjl' : jj < dirs.length := hklen ▸ hjl
    rw [hkey i hi, hkey jj hjl', sqDist_self]
    have hmem_i : dirs.getD i [] ∈ dirs := by
      rw [getD_eq_getElem dirs i hi []]
      exact List.getElem_mem hi
    have hmem_j : dirs.getD jj [] ∈ dirs := by
      rw [getD_eq_getElem dirs jj hjl' []]
      exact List.getElem_mem hjl'
    have hlen2 : (dirs.getD i []).length = (dirs.getD jj []).length := by
      rw [hrect _ hmem_i, hrect _ hmem_j]
    have hne : dirs.getD i [] ≠ dirs.getD jj [] := by
      intro he
      apply hji
      rw [getD_eq_getElem dirs i hi [], getD_eq_getElem dirs jj hjl' []] at he
      exact (List.Nodup.getElem_inj_iff hnd).mp he.symm
    exact lt_of_le_of_ne (sqDist_nonneg _ _)
      (fun h0 => hne (sqDist_eq_zero _ _ hlen2 h0.symm))
  obtain ⟨tl, htl⟩ :=
    argsort_head (cdistRow dirs (dirs.getD i [])) i (hklen ▸ hi) hminkey
  have hrowlen : ((argsort (cdistRow dirs (dirs.getD i []))).take K).length = K := by
    rw [List.length_take, halen]
    exact min_eq_left hKM
  have hentries : ∀ x ∈ (argsort (cdistRow dirs (dirs.getD i []))).take K,
      x < dirs.length := by
    intro x hx
    have hx1 : x ∈ argsort (cdistRow dirs (dirs.getD i [])) :=
      (List.take_sublist K _).subset hx
    have hx2 := (argsort_perm _).subset hx1
    exact hklen ▸ List.mem_range.mp hx2
  refine ⟨hrowlen, ?_, ?_⟩
  · rw [htl]
    cases K with
    | zero => omega
    | succ K' =>
      rw [List.take_succ_cons]
      exact List.mem_cons_self i _
  · have hsorted : List.Pairwise
        (fun s u => (cdistRow dirs (dirs.getD i [])).getD s 0 <=
          (cdistRow dirs (dirs.getD i [])).getD u 0)
        ((argsort (cdistRow dirs (dirs.getD i []))).take K) :=
      List.Pairwise.sublist (List.take_sublist K _) (argsort_sorted _)
    have ht1 : t < ((argsort (cdistRow dirs (dirs.getD i []))).take K).length := by
      rw [hrowlen]; omega
    have ht2 : t + 1 < ((argsort (cdistRow dirs (dirs.getD i []))).take K).length := by
      rw [hrowlen]; omega
    have hcons := List.pairwise_iff_getElem.mp hsorted t (t + 1) ht1 ht2
      (Nat.lt_succ_self t)
    rw [getD_eq_getElem _ t ht1 0, getD_eq_getElem _ (t + 1) ht2 0]
    have hb1 : ((argsort (cdistRow dirs (dirs.getD i []))).take K)[t] < dirs.length :=
      hentries _ (List.getElem_mem ht1)
    have hb2 : ((argsort (cdistRow dirs (dirs.getD i []))).take K)[t + 1] < dirs.length :=
      hentries _ (List.getElem_mem ht2)
    rw [hkey _ hb1, hkey _ hb2] at hcons
    apply Real.sqrt_le_sqrt
    exact_mod_cast hcons

/-- C6 counterexample: constructing the algorithm with neighborhood size
`K = 0` (so `K <= 0`) over two reference directions does not fail: the
constructor completes, producing an empty neighbor row per direction, and
the only fatal setup check (the constraint assertion) passes. -/
theorem moead_setup_K0_no_failure :
    (moeadInit [[1, 0], [0, 1]] 0 1).isSome = true ∧
    Option.map MOEADConfig.neighbors (moeadInit [[1, 0], [0, 1]] 0 1) =
      some [[], []] ∧
    moeadSetup { n_obj := 2, has_constraints := false } = Except.ok () := by
  refine ⟨by decide, by decide, rfl⟩

/-- C6 amended: construction does not validate the neighborhood size or the
reference direction set: for every rectangular direction set and every `K`
(including `K <= 0` and the empty set) the constructor completes, with
`K = 0` yielding empty neighbor rows; at setup only the constraint assertion
can fail, and an empty direction set surfaces an error only later, when the
ideal point is taken over the empty initial population. -/
theorem moead_setup_no_validation (dirs : List (List Rat)) (K : Int)
    (prob : Rat) (p : Problem) (hrect : isRect dirs = true)
    (hp : p.has_constraints = false) :
    (moeadInit dirs K prob).isSome = true ∧
    (K = 0 → ∀ row ∈ mkNeighbors dirs (min (dirs.length : Int) K), row = []) ∧
    moeadSetup p = Except.ok () ∧
    initIdeal [] = none := by
  refine ⟨?_, ?_, ?_, rfl⟩
  · rw [moeadInit, if_pos hrect]
    rfl
  · intro hK row hrow
    subst hK
    rcases List.mem_map.mp hrow with ⟨d, _, heq⟩
    rw [← heq]
    have hmin : min (dirs.length : Int) 0 = 0 :=
      min_eq_right (Int.natCast_nonneg _)
    rw [hmin, pySlice, if_pos le_rfl]
    rfl
  · rw [moeadSetup, hp]
    rfl

/-! ### Witnesses: the claim theorems applied at concrete inputs -/

/-- Witness for the C1 theorem: with neighbor row `[1, 0]` for subproblem 0
and a first-objective decomposition, the offspring with objective 4 beats the
incumbent with objective 7 at neighbor position 0 (slot 1). -/
theorem moead_replace_strict_improvement_witness :
    (([[1, 0]] : List (List Nat)).getD 0 []).Nodup ∧
    (∀ s ∈ ([[1, 0]] : List (List Nat)).getD 0 [],
      s < ([⟨1, [], [5]⟩, ⟨2, [], [7]⟩] : List Individual).length) ∧
    0 < (([[1, 0]] : List (List Nat)).getD 0 []).length ∧
    (replaceStep (fun F _ _ => F.headD 0) [[1], [2]] [[1, 0]] [0]
        [⟨1, [], [5]⟩, ⟨2, [], [7]⟩] 0 ⟨3, [], [4]⟩).getD 1 default =
      ⟨3, [], [4]⟩ :=
  ⟨by decide, by decide, by decide,
    moead_replace_strict_improvement (fun F _ _ => F.headD 0) [[1], [2]]
      [[1, 0]] [0] [⟨1, [], [5]⟩, ⟨2, [], [7]⟩] 0 ⟨3, [], [4]⟩ 0
      (by decide) (by decide) (by decide)⟩

/-- Witness for the C2 theorem: updating ideal point `[1, 5]` with `[[0, 7]]`
stays coordinate-wise below `[1, 5]`, and one step of each engine keeps the
ideal point below its start value. -/
theorem moead_ideal_point_monotone_witness :
    (∀ f ∈ ([[0, 7]] : List (List Rat)), f.length = ([1, 5] : List Rat).length) ∧
    (∀ p ∈ ([(0, ⟨0, [], [2]⟩)] : List (Nat × Individual)),
      p.2.F.length = ([3] : List Rat).length) ∧
    (updateIdeal [1, 5] [[0, 7]]).getD 0 0 =
      (([[0, 7]] : List (List Rat)).map (fun f => f.getD 0 0)).foldl min
        (([1, 5] : List Rat).getD 0 0) ∧
    (updateIdeal [1, 5] [[0, 7]]).getD 0 0 <= ([1, 5] : List Rat).getD 0 0 ∧
    (sequentialAdvance (fun F _ _ => F.headD 0) [] [] ⟨[], [3]⟩
        [(0, ⟨0, [], [2]⟩)]).ideal.getD 0 0 <= ([3] : List Rat).getD 0 0 ∧
    (parallelAdvance (fun F _ _ => F.headD 0) [] [] ⟨[], [3]⟩
        [(0, ⟨0, [], [2]⟩)]).ideal.getD 0 0 <= ([3] : List Rat).getD 0 0 := by
  have h := moead_ideal_point_monotone (fun F _ _ => F.headD 0) [] [] [1, 5]
    [[0, 7]] ⟨[], [3]⟩ [(0, ⟨0, [], [2]⟩)] 0 (by decide) (by decide)
  exact ⟨by decide, by decide, (h.1 (by decide)).1, (h.1 (by decide)).2.1,
    (h.2 (by decide)).1, (h.2 (by decide)).2⟩

/-- Witness for the C3 theorem at two unit directions with `K = 2`, row 0,
consecutive positions 0 and 1. -/
theorem moead_neighbor_table_rows_witness :
    (∀ d ∈ ([[1, 0], [0, 1]] : List (List Rat)), d.length = 2) ∧
    ([[1, 0], [0, 1]] : List (List Rat)).Nodup ∧
    (1 <= 2 ∧ 2 <= ([[1, 0], [0, 1]] : List (List Rat)).length ∧
      0 < ([[1, 0], [0, 1]] : List (List Rat)).length ∧ 0 + 1 < 2) ∧
    (((mkNeighbors [[1, 0], [0, 1]] ((2 : Nat) : Int)).getD 0 []).length = 2 ∧
      0 ∈ (mkNeighbors [[1, 0], [0, 1]] ((2 : Nat) : Int)).getD 0 [] ∧
      Real.sqrt ((sqDist (([[1, 0], [0, 1]] : List (List Rat)).getD 0 [])
          (([[1, 0], [0, 1]] : List (List Rat)).getD
            (((mkNeighbors [[1, 0], [0, 1]] ((2 : Nat) : Int)).getD 0 []).getD 0 0)
            []) : Rat) : Real) <=
        Real.sqrt ((sqDist (([[1, 0], [0, 1]] : List (List Rat)).getD 0 [])
          (([[1, 0], [0, 1]] : List (List Rat)).getD
            (((mkNeighbors [[1, 0], [0, 1]] ((2 : Nat) : Int)).getD 0 []).getD
              (0 + 1) 0) []) : Rat) : Real)) :=
  ⟨by decide, by decide, ⟨by decide, by decide, by decide, by decide⟩,
    moead_neighbor_table_rows [[1, 0], [0, 1]] 2 0 0 2 (by decide) (by decide)
      (by decide) (by decide) (by decide) (by decide)⟩

/-- Witness for the C4 theorem: one batch of one offspring over the starting
ideal point `[3]`. -/
theorem moead_parallel_single_batch_ideal_witness :
    (∀ p ∈ ([(0, ⟨1, [], [2]⟩)] : List (Nat × Individual)),
      p.2.F.length = ([3] : List Rat).length) ∧
    0 < ([3] : List Rat).length ∧
    ((parallelAdvance (fun F _ _ => F.headD 0) [] [] ⟨[], [3]⟩
        [(0, ⟨1, [], [2]⟩)]).ideal =
      updateIdeal [3] (([(0, ⟨1, [], [2]⟩)] : List (Nat × Individual)).map
        (fun p => p.2.F)) ∧
     (parallelAdvance (fun F _ _ => F.headD 0) [] [] ⟨[], [3]⟩
        [(0, ⟨1, [], [2]⟩)]).pop =
      ([(0, ⟨1, [], [2]⟩)] : List (Nat × Individual)).foldl
        (fun p q => replaceStep (fun F _ _ => F.headD 0) [] []
          (updateIdeal [3] (([(0, ⟨1, [], [2]⟩)] : List (Nat × Individual)).map
            (fun r => r.2.F))) p q.1 q.2) [] ∧
     (updateIdeal [3] (([(0, ⟨1, [], [2]⟩)] : List (Nat × Individual)).map
        (fun p => p.2.F))).getD 0 0 =
      ((([(0, ⟨1, [], [2]⟩)] : List (Nat × Individual)).map
        (fun p => p.2.F)).map (fun f => f.getD 0 0)).foldl min
        (([3] : List Rat).getD 0 0)) :=
  ⟨by decide, by decide,
    moead_parallel_single_batch_ideal (fun F _ _ => F.headD 0) [] []
      ⟨[], [3]⟩ [(0, ⟨1, [], [2]⟩)] 0 (by decide) (by decide)⟩

/-- Witness for the C5 theorem: one request anchored at subproblem 0 with
neighbor row `[0, 1]`, population of 2, one parent. -/
theorem moead_neighborhood_selection_policy_witness :
    (0 < ([0] : List Nat).length ∧
      ([0] : List Nat).length = ([⟨0, [1, 0], [1, 0]⟩] : List Draw).length ∧
      (([[0, 1]] : List (List Nat)).getD 0 []).Nodup ∧
      (Draw.mk 0 [1, 0] [1, 0]).shuffleNeighbors.Perm
        (List.range (([[0, 1]] : List (List Nat)).getD 0 []).length) ∧
      (Draw.mk 0 [1, 0] [1, 0]).shufflePop.Perm (List.range 2) ∧
      1 <= (([[0, 1]] : List (List Nat)).getD 0 []).length ∧ 1 <= 2) ∧
    ((selectionDo [[0, 1]] 1 1 [0] [⟨0, [1, 0], [1, 0]⟩]).getD 0 [] =
      selectionRequest [[0, 1]] 1 1 (([0] : List Nat).getD 0 0)
        (([⟨0, [1, 0], [1, 0]⟩] : List Draw).getD 0 default) ∧
     ((Draw.mk 0 [1, 0] [1, 0]).u < 1 →
      selectionRequest [[0, 1]] 1 1 0 ⟨0, [1, 0], [1, 0]⟩ =
        chooseWithoutReplacement (([[0, 1]] : List (List Nat)).getD 0 []) 1
          (Draw.mk 0 [1, 0] [1, 0]).shuffleNeighbors ∧
      (selectionRequest [[0, 1]] 1 1 0 ⟨0, [1, 0], [1, 0]⟩).length = 1 ∧
      (selectionRequest [[0, 1]] 1 1 0 ⟨0, [1, 0], [1, 0]⟩).Nodup ∧
      ∀ x ∈ selectionRequest [[0, 1]] 1 1 0 ⟨0, [1, 0], [1, 0]⟩,
        x ∈ ([[0, 1]] : List (List Nat)).getD 0 []) ∧
     (¬ (Draw.mk 0 [1, 0] [1, 0]).u < 1 →
      selectionRequest [[0, 1]] 1 1 0 ⟨0, [1, 0], [1, 0]⟩ =
        (Draw.mk 0 [1, 0] [1, 0]).shufflePop.take 1 ∧
      (selectionRequest [[0, 1]] 1 1 0 ⟨0, [1, 0], [1, 0]⟩).length = 1 ∧
      (selectionRequest [[0, 1]] 1 1 0 ⟨0, [1, 0], [1, 0]⟩).Nodup ∧
      ∀ x ∈ selectionRequest [[0, 1]] 1 1 0 ⟨0, [1, 0], [1, 0]⟩, x < 2)) :=
  ⟨⟨by decide, by decide, by decide, by decide, by decide, by decide,
      by decide⟩,
    moead_neighborhood_selection_policy [[0, 1]] 1 2 1 [0]
      [⟨0, [1, 0], [1, 0]⟩] 0 0 ⟨0, [1, 0], [1, 0]⟩ (by decide) (by decide)
      (by decide) (by decide) (by decide) (by decide) (by decide)⟩

/-- Witness for the C6 amended theorem: the empty direction set with a
negative neighborhood size still constructs, and setup passes for an
unconstrained problem. -/
theorem moead_setup_no_validation_witness :
    isRect [] = true ∧ (Problem.mk 3 false).has_constraints = false ∧
    ((moeadInit [] (-3) 1).isSome = true ∧
     ((-3 : Int) = 0 →
       ∀ row ∈ mkNeighbors []
         (min ((([] : List (List Rat)).length : Nat) : Int) (-3)), row = []) ∧
     moeadSetup ⟨3, false⟩ = Except.ok () ∧
     initIdeal [] = none) :=
  ⟨by decide, rfl,
    moead_setup_no_validation [] (-3) 1 ⟨3, false⟩ (by decide) rfl⟩

/-- Witness for the C9 theorem: two directions, neighborhood size 0 (so the
neighbor table evaluates without any distance computation). -/
theorem moead_population_size_invariant_witness :
    moeadInit [[1, 0], [0, 1]] 0 1 =
      some ⟨[[1, 0], [0, 1]], 0, 1, [[], []], 2⟩ ∧
    ((MOEADConfig.mk [[1, 0], [0, 1]] 0 1 [[], []] 2).pop_size =
        ([[1, 0], [0, 1]] : List (List Rat)).length ∧
     (MOEADConfig.mk [[1, 0], [0, 1]] 0 1 [[], []] 2).neighbors.length =
        ([[1, 0], [0, 1]] : List (List Rat)).length ∧
     (∀ (decomp : DecompFn) (ideal : List Rat) (pop : List Individual)
         (i : Nat) (off : Individual),
       (replaceStep decomp (MOEADConfig.mk [[1, 0], [0, 1]] 0 1 [[], []] 2).ref_dirs
           (MOEADConfig.mk [[1, 0], [0, 1]] 0 1 [[], []] 2).neighbors ideal pop
           i off).length = pop.length) ∧
     (∀ (decomp : DecompFn) (st : AlgoState) (plan : List (Nat × Individual)),
       (sequentialAdvance decomp
           (MOEADConfig.mk [[1, 0], [0, 1]] 0 1 [[], []] 2).ref_dirs
           (MOEADConfig.mk [[1, 0], [0, 1]] 0 1 [[], []] 2).neighbors st
           plan).pop.length = st.pop.length) ∧
     (∀ (decomp : DecompFn) (st : AlgoState)
         (infills : List (Nat × Individual)),
       (parallelAdvance decomp
           (MOEADConfig.mk [[1, 0], [0, 1]] 0 1 [[], []] 2).ref_dirs
           (MOEADConfig.mk [[1, 0], [0, 1]] 0 1 [[], []] 2).neighbors st
           infills).pop.length = st.pop.length)) :=
  ⟨by decide,
    moead_population_size_invariant [[1, 0], [0, 1]] 0 1
      ⟨[[1, 0], [0, 1]], 0, 1, [[], []], 2⟩ (by decide)⟩

/-- Witness for the C10 theorem: the offspring with objective 4 beats both
incumbents (objectives 7 and 5), and both winning slots hold the very same
offspring individual. -/
theorem moead_shared_offspring_slots_witness :
    (([[1, 0]] : List (List Nat)).getD 0 []).Nodup ∧
    (∀ s ∈ ([[1, 0]] : List (List Nat)).getD 0 [],
      s < ([⟨1, [], [5]⟩, ⟨2, [], [7]⟩] : List Individual).length) ∧
    ((4 : Rat) < 7 ∧ (4 : Rat) < 5) ∧
    ((replaceStep (fun F _ _ => F.headD 0) [[1], [2]] [[1, 0]] [0]
        [⟨1, [], [5]⟩, ⟨2, [], [7]⟩] 0 ⟨3, [], [4]⟩).getD 1 default =
      ⟨3, [], [4]⟩ ∧
     (replaceStep (fun F _ _ => F.headD 0) [[1], [2]] [[1, 0]] [0]
        [⟨1, [], [5]⟩, ⟨2, [], [7]⟩] 0 ⟨3, [], [4]⟩).getD 0 default =
      ⟨3, [], [4]⟩ ∧
     (replaceStep (fun F _ _ => F.headD 0) [[1], [2]] [[1, 0]] [0]
        [⟨1, [], [5]⟩, ⟨2, [], [7]⟩] 0 ⟨3, [], [4]⟩).getD 1 default =
      (replaceStep (fun F _ _ => F.headD 0) [[1], [2]] [[1, 0]] [0]
        [⟨1, [], [5]⟩, ⟨2, [], [7]⟩] 0 ⟨3, [], [4]⟩).getD 0 default) :=
  ⟨by decide, by decide, ⟨by decide, by decide⟩,
    moead_shared_offspring_slots (fun F _ _ => F.headD 0) [[1], [2]]
      [[1, 0]] [0] [⟨1, [], [5]⟩, ⟨2, [], [7]⟩] 0 ⟨3, [], [4]⟩ 0 1
      (by decide) (by decide) (by decide) (by decide) (by decide) (by decide)⟩

end MoeadSpec
